import Mathlib

/-!
Shallow embedding of the bitdog-keyboard-piano firmware (src/main.c).

The program drives a 4x4 matrix keypad: four line pins are GPIO outputs,
four column pins are GPIO inputs with pull-downs.  The scanner activates
one row at a time, samples the four column pins, plays a tone from a
fixed frequency table on a press, and busy-waits for the release of the
pressed column pin.  The main routine initializes the peripherals, plays
a welcome tone and then polls forever.

GPIO effects are modelled as an explicit event trace.  Reads of column
pins come from an environment `env : Nat → Nat → Bool`, mapping the index
of the read (a global counter that advances by one at each gpio read) and
the GPIO pin number to the sampled level.  The unbounded release-wait
loop is given explicit fuel; exhausting the fuel models divergence of the
loop and is reported as a `none` final time.
-/

/-- Events emitted by the program: GPIO configuration, line-pin writes,
column-pin reads (with the value that was read), tone playback, and
sleeps.  The two initialization calls into external libraries are kept
as opaque events. -/
inductive Event where
  | init (pin : Nat)
  | setDir (pin : Nat) (out : Bool)
  | put (pin : Nat) (value : Bool)
  | pullDown (pin : Nat)
  | get (pin : Nat) (value : Bool)
  | tone (freq : Int) (ms : Nat)
  | sleep (ms : Nat)
  | stdioInit
  | buzzerInit
  deriving DecidableEq, Repr

/-- GPIO pin numbers of the four keypad lines, from main.c
(LINE1..LINE4 = 4, 8, 9, 16). -/
def LINE_PINS : List Nat := [4, 8, 9, 16]

/-- GPIO pin numbers of the four keypad columns, from main.c
(COLUMN1..COLUMN4 = 17, 18, 19, 20). -/
def COLUMN_PINS : List Nat := [17, 18, 19, 20]

/-- The frequency table freq_map of main.c, row by row. -/
def freq_map : List (List Int) :=
  [[262, 294, 330, 349],
   [392, 440, 494, 523],
   [587, 659, 698, 784],
   [880, 988, 1047, 1175]]

/-- Checked lookup into freq_map: none exactly when an index is out of
range, which is the undefined-behavior case of the C array access. -/
def freq_map_at (row col : Nat) : Option Int :=
  (freq_map.get? row).bind fun r => r.get? col

/-- Unchecked lookup, as performed by the C expression
freq_map[row][col]; the default 0 is never reached for in-range
indices. -/
def freqAt (row col : Nat) : Int :=
  (freq_map.getD row []).getD col 0

/-- The release-wait loop of scan_keyboard: while gpio_get of the column
pin reads high, spin.  Each iteration performs one read at the current
time.  Returns the trace of reads and, when the loop exits within the
fuel, the time after the final low read. -/
def waitRelease (env : Nat → Nat → Bool) (pin : Nat) :
    Nat → Nat → List Event × Option Nat
  | 0, _ => ([], none)
  | fuel + 1, t =>
    if env t pin then
      let rec_ := waitRelease env pin fuel (t + 1)
      (Event.get pin true :: rec_.1, rec_.2)
    else
      ([Event.get pin false], some (t + 1))

/-- The inner column loop of scan_keyboard for the active row: read each
column pin in order; on a high read, play the mapped tone for 200 ms and
run the release wait before moving to the next column. -/
def scanCols (env : Nat → Nat → Bool) (fuel row : Nat) :
    List Nat → Nat → List Event × Option Nat
  | [], t => ([], some t)
  | col :: rest, t =>
    let pin := COLUMN_PINS.getD col 0
    if env t pin then
      match waitRelease env pin fuel (t + 1) with
      | (wevs, none) =>
        (Event.get pin true :: Event.tone (freqAt row col) 200 :: wevs, none)
      | (wevs, some t') =>
        let next := scanCols env fuel row rest t'
        (Event.get pin true :: Event.tone (freqAt row col) 200 ::
          (wevs ++ next.1), next.2)
    else
      let next := scanCols env fuel row rest (t + 1)
      (Event.get pin false :: next.1, next.2)

/-- The outer row loop of scan_keyboard: activate the row line pin, scan
the four columns, deactivate the line pin.  When the column scan
diverges inside the release wait, the row is never deactivated. -/
def scanRows (env : Nat → Nat → Bool) (fuel : Nat) :
    List Nat → Nat → List Event × Option Nat
  | [], t => ([], some t)
  | row :: rest, t =>
    let lpin := LINE_PINS.getD row 0
    match scanCols env fuel row [0, 1, 2, 3] t with
    | (evs, none) => (Event.put lpin true :: evs, none)
    | (evs, some t') =>
      let next := scanRows env fuel rest t'
      (Event.put lpin true :: (evs ++ Event.put lpin false :: next.1), next.2)

/-- One call of scan_keyboard, starting the global read counter at t. -/
def scan_keyboard (env : Nat → Nat → Bool) (fuel t : Nat) :
    List Event × Option Nat :=
  scanRows env fuel [0, 1, 2, 3] t

/-- The trace of setup_keyboard: for i = 0..3, init the line pin, set it
to output, drive it low, then init the column pin, set it to input and
enable its pull-down. -/
def setup_keyboard : List Event :=
  (List.range 4).flatMap fun i =>
    [Event.init (LINE_PINS.getD i 0),
     Event.setDir (LINE_PINS.getD i 0) true,
     Event.put (LINE_PINS.getD i 0) false,
     Event.init (COLUMN_PINS.getD i 0),
     Event.setDir (COLUMN_PINS.getD i 0) false,
     Event.pullDown (COLUMN_PINS.getD i 0)]

/-- The trace of setup: stdio_init_all, initBuzzerPWM, setup_keyboard. -/
def setupTrace : List Event :=
  Event.stdioInit :: Event.buzzerInit :: setup_keyboard

/-- The polling loop of main, unrolled for n iterations: scan the
keyboard and sleep 10 ms, repeatedly.  A scan that diverges ends the
trace inside that scan. -/
def loopTrace (env : Nat → Nat → Bool) (fuel : Nat) :
    Nat → Nat → List Event
  | 0, _ => []
  | n + 1, t =>
    match scan_keyboard env fuel t with
    | (evs, none) => evs
    | (evs, some t') => evs ++ Event.sleep 10 :: loopTrace env fuel n t'

/-- The trace of main, observed for n polling iterations: setup, the
welcome tone playTone(262, 200), then the polling loop. -/
def mainTrace (env : Nat → Nat → Bool) (fuel n : Nat) : List Event :=
  setupTrace ++ Event.tone 262 200 :: loopTrace env fuel n 0

/-- The tone events of a trace, in order. -/
def tones (evs : List Event) : List (Int × Nat) :=
  evs.filterMap fun e =>
    match e with
    | Event.tone f ms => some (f, ms)
    | _ => none

/-- Configuration state of one GPIO pin: whether gpio_init ran, its
direction (none before any direction is set; some true is output), its
driven output value, and whether the pull-down is enabled. -/
structure PinConfig where
  initialized : Bool
  dir : Option Bool
  value : Bool
  pulled : Bool
  deriving DecidableEq, Repr

/-- State of a pin that was never touched. -/
def initPinConfig : PinConfig :=
  { initialized := false, dir := none, value := false, pulled := false }

/-- Effect of one event on the pin-configuration map.  gpio_init resets
the pin to input, value low (as the pico SDK does), leaving pulls alone;
reads and tones do not change configuration. -/
def applyCfg (s : Nat → PinConfig) : Event → Nat → PinConfig
  | Event.init p => fun q =>
      if q = p then
        { initialized := true, dir := some false, value := false,
          pulled := (s q).pulled }
      else s q
  | Event.setDir p d => fun q => if q = p then { s q with dir := some d } else s q
  | Event.put p v => fun q => if q = p then { s q with value := v } else s q
  | Event.pullDown p => fun q => if q = p then { s q with pulled := true } else s q
  | _ => s

/-- Pin-configuration map after running a trace from the untouched state. -/
def configAfter (evs : List Event) : Nat → PinConfig :=
  evs.foldl applyCfg fun _ => initPinConfig

/-- The pin an event configures or writes, if any. -/
def eventPin : Event → Option Nat
  | Event.init p => some p
  | Event.setDir p _ => some p
  | Event.put p _ => some p
  | Event.pullDown p => some p
  | Event.get p _ => some p
  | _ => none

/-- The line-pin write events of a trace, as pin-value pairs in order. -/
def putsOf (evs : List Event) : List (Nat × Bool) :=
  evs.filterMap fun e =>
    match e with
    | Event.put p v => some (p, v)
    | _ => none

/-- The write events a list of row scans performs on the line pins when
every row completes: activate, then deactivate, row by row. -/
def rowPutPairs (rows : List Nat) : List (Nat × Bool) :=
  rows.flatMap fun r => [(LINE_PINS.getD r 0, true), (LINE_PINS.getD r 0, false)]

/-- The full put sequence of a completed scan pass. -/
def fullPutSeq : List (Nat × Bool) := rowPutPairs [0, 1, 2, 3]

/-- Index of a line pin in LINE_PINS. -/
def lineIdx (p : Nat) : Option Nat :=
  if p = 4 then some 0
  else if p = 8 then some 1
  else if p = 9 then some 2
  else if p = 16 then some 3
  else none

/-- Levels of the four line pins after a sequence of put events, starting
from the all-low idle state that setup_keyboard establishes. -/
def lineLevels (ps : List (Nat × Bool)) : List Bool :=
  ps.foldl
    (fun ls pv =>
      match lineIdx pv.1 with
      | some i => ls.set i pv.2
      | none => ls)
    [false, false, false, false]

/-- The table read in serpentine order: row 0 left to right, row 1 right
to left, alternating. -/
def serpentineOrder : List Int :=
  (freq_map.getD 0 []) ++ (freq_map.getD 1 []).reverse ++
    (freq_map.getD 2 []) ++ (freq_map.getD 3 []).reverse

/-- The table read in row-major order. -/
def rowMajorOrder : List Int := freq_map.flatMap id

/-- A frequency that occurs in the table at in-range indices. -/
def inFreqTable (f : Int) : Prop :=
  ∃ r, r < 4 ∧ ∃ c, c < 4 ∧ freq_map_at r c = some f

/-- Safety predicate on events: tones carry a table frequency and last
200 ms, put events target line pins, reads target column pins, pin
configuration targets keypad pins, and sleeps last 10 ms. -/
def eventOk : Event → Prop
  | Event.tone f ms => ms = 200 ∧ inFreqTable f
  | Event.put p _ => p ∈ LINE_PINS
  | Event.get p _ => p ∈ COLUMN_PINS
  | Event.sleep ms => ms = 10
  | Event.init p => p ∈ LINE_PINS ∨ p ∈ COLUMN_PINS
  | Event.setDir p _ => p ∈ LINE_PINS ∨ p ∈ COLUMN_PINS
  | Event.pullDown p => p ∈ LINE_PINS ∨ p ∈ COLUMN_PINS
  | Event.stdioInit => True
  | Event.buzzerInit => True

/-- Decidability of table membership, by bounded search. -/
instance (f : Int) : Decidable (inFreqTable f) :=
  inferInstanceAs (Decidable (∃ r, r < 4 ∧ ∃ c, c < 4 ∧ freq_map_at r c = some f))

/-- Decidability of the event safety predicate. -/
instance : DecidablePred eventOk := fun e =>
  match e with
  | Event.init p => inferInstanceAs (Decidable (p ∈ LINE_PINS ∨ p ∈ COLUMN_PINS))
  | Event.setDir p _ => inferInstanceAs (Decidable (p ∈ LINE_PINS ∨ p ∈ COLUMN_PINS))
  | Event.put p _ => inferInstanceAs (Decidable (p ∈ LINE_PINS))
  | Event.pullDown p => inferInstanceAs (Decidable (p ∈ LINE_PINS ∨ p ∈ COLUMN_PINS))
  | Event.get p _ => inferInstanceAs (Decidable (p ∈ COLUMN_PINS))
  | Event.tone f ms => inferInstanceAs (Decidable (ms = 200 ∧ inFreqTable f))
  | Event.sleep ms => inferInstanceAs (Decidable (ms = 10))
  | Event.stdioInit => inferInstanceAs (Decidable True)
  | Event.buzzerInit => inferInstanceAs (Decidable True)

/-- A list of frequencies is strictly increasing. -/
def strictIncr : List Int → Bool
  | [] => true
  | [_] => true
  | a :: b :: rest => a < b && strictIncr (b :: rest)

/-- Appending traces concatenates their tone lists. -/
theorem tones_append (l₁ l₂ : List Event) :
    tones (l₁ ++ l₂) = tones l₁ ++ tones l₂ := by
  simp [tones]

/-- A run of identical reads contributes no tones. -/
theorem tones_replicate_get (n pin : Nat) (b : Bool) :
    tones (List.replicate n (Event.get pin b)) = [] := by
  induction n with
  | zero => rfl
  | succ k ih => simp only [List.replicate_succ, tones, List.filterMap_cons] at ih ⊢; exact ih

/-- While the column pin keeps reading high, the release wait spins
until its fuel is exhausted, producing only high reads and no exit. -/
theorem waitRelease_spin (env : Nat → Nat → Bool) (pin : Nat)
    (h : ∀ u, env u pin = true) :
    ∀ fuel t, waitRelease env pin fuel t =
      (List.replicate fuel (Event.get pin true), none) := by
  intro fuel
  induction fuel with
  | zero => intro t; rfl
  | succ k ih =>
    intro t
    simp [waitRelease, h t, ih (t + 1), List.replicate_succ]

/-- C1: for every row and col in the range 0..3, the frequency looked up
for key (row, col) is the exact literal value of the fixed table of
main.c, from 262 at (0,0) to 1175 at (3,3). -/
theorem freq_map_matches_table :
    freq_map_at 0 0 = some 262 ∧ freq_map_at 0 1 = some 294 ∧
    freq_map_at 0 2 = some 330 ∧ freq_map_at 0 3 = some 349 ∧
    freq_map_at 1 0 = some 392 ∧ freq_map_at 1 1 = some 440 ∧
    freq_map_at 1 2 = some 494 ∧ freq_map_at 1 3 = some 523 ∧
    freq_map_at 2 0 = some 587 ∧ freq_map_at 2 1 = some 659 ∧
    freq_map_at 2 2 = some 698 ∧ freq_map_at 2 3 = some 784 ∧
    freq_map_at 3 0 = some 880 ∧ freq_map_at 3 1 = some 988 ∧
    freq_map_at 3 2 = some 1047 ∧ freq_map_at 3 3 = some 1175 := by
  decide

/-- C2: in the environment whose only high read is the sample of column
pin 19 at read index 6 — the row 1, column 2 sample, taken while line
pin 8 is active — one scan pass plays exactly the tone for
freq_map[1][2] and completes after 17 reads. -/
theorem scan_detects_single_key (env : Nat → Nat → Bool) (fuel : Nat)
    (henv : ∀ t p, env t p = decide (t = 6 ∧ p = 19)) (hfuel : 1 ≤ fuel) :
    tones (scan_keyboard env fuel 0).1 = [(freqAt 1 2, 200)] ∧
      (scan_keyboard env fuel 0).2 = some 17 := by
  have h : env = fun t p => decide (t = 6 ∧ p = 19) :=
    funext fun t => funext fun p => henv t p
  subst h
  obtain ⟨k, rfl⟩ : ∃ k, fuel = k + 1 := ⟨fuel - 1, by omega⟩
  exact ⟨rfl, rfl⟩

/-- Witness for C2 at fuel 1. -/
theorem scan_detects_single_key_witness :
    tones (scan_keyboard (fun t p => decide (t = 6 ∧ p = 19)) 1 0).1 =
        [(freqAt 1 2, 200)] ∧
      (scan_keyboard (fun t p => decide (t = 6 ∧ p = 19)) 1 0).2 = some 17 :=
  scan_detects_single_key (fun t p => decide (t = 6 ∧ p = 19)) 1
    (fun _ _ => rfl) (by decide)

/-- C3: in the environment where column pin 20 always reads high — key
(0,3) held throughout, key (1,0) held as well but electrically invisible
while row 1 is inactive — one scan pass plays only the tone for
freq_map[0][3] and never completes, so no later row or column is ever
reported. -/
theorem scan_first_match_only (env : Nat → Nat → Bool) (fuel : Nat)
    (henv : ∀ t p, env t p = decide (p = 20)) :
    tones (scan_keyboard env fuel 0).1 = [(freqAt 0 3, 200)] ∧
      (scan_keyboard env fuel 0).2 = none := by
  have h : env = fun _ p => decide (p = 20) :=
    funext fun t => funext fun p => henv t p
  subst h
  have hspin := waitRelease_spin (fun _ p => decide (p = 20)) 20
    (fun _ => rfl) fuel 4
  constructor
  · simp [scan_keyboard, scanRows, scanCols, COLUMN_PINS, LINE_PINS, hspin,
      tones_replicate_get, tones]
  · simp [scan_keyboard, scanRows, scanCols, COLUMN_PINS, LINE_PINS, hspin]

/-- Witness for C3 at fuel 0. -/
theorem scan_first_match_only_witness :
    tones (scan_keyboard (fun _ p => decide (p = 20)) 0 0).1 =
        [(freqAt 0 3, 200)] ∧
      (scan_keyboard (fun _ p => decide (p = 20)) 0 0).2 = none :=
  scan_first_match_only (fun _ p => decide (p = 20)) 0 (fun _ _ => rfl)

/-- C4: in the environment where every read is low, one scan pass plays
no tone and completes after the 16 reads of the four rows. -/
theorem scan_no_key_no_tone (env : Nat → Nat → Bool) (fuel : Nat)
    (henv : ∀ t p, env t p = false) :
    tones (scan_keyboard env fuel 0).1 = [] ∧
      (scan_keyboard env fuel 0).2 = some 16 := by
  have h : env = fun _ _ => false := funext fun t => funext fun p => henv t p
  subst h
  exact ⟨rfl, rfl⟩

/-- Witness for C4 at fuel 0. -/
theorem scan_no_key_no_tone_witness :
    tones (scan_keyboard (fun _ _ => false) 0 0).1 = [] ∧
      (scan_keyboard (fun _ _ => false) 0 0).2 = some 16 :=
  scan_no_key_no_tone (fun _ _ => false) 0 (fun _ _ => rfl)

/-- C8: in every execution, setup plays no tone, and the tone list of
the main trace is the welcome tone (262, 200) followed by exactly the
tones of the polling loop, so the welcome tone is played once and
precedes every keypad-triggered tone in program order. -/
theorem welcome_tone_precedes_keypad_tones (env : Nat → Nat → Bool)
    (fuel n : Nat) :
    tones setupTrace = [] ∧
      tones (mainTrace env fuel n) = (262, 200) :: tones (loopTrace env fuel n 0) := by
  refine ⟨rfl, ?_⟩
  rw [mainTrace, tones_append]
  rfl

/-- C9 counterexample: the serpentine traversal of the table is not
strictly increasing: its fifth element 523 is followed by 494. -/
theorem serpentine_order_counterexample :
    serpentineOrder.get? 4 = some 523 ∧ serpentineOrder.get? 5 = some 494 ∧
      strictIncr serpentineOrder = false := by
  decide

/-- C9 amended: every cell of the table lies in the audible range 20 Hz
to 20 kHz, and the values are strictly increasing in row-major order
(not serpentine order). -/
theorem freq_table_rowmajor_increasing :
    strictIncr rowMajorOrder = true ∧
      ∀ f ∈ rowMajorOrder, 20 ≤ f ∧ f ≤ 20000 := by
  decide

/-- Witness for the amended C9 at the first table entry. -/
theorem freq_table_rowmajor_increasing_witness :
    20 ≤ (262 : Int) ∧ (262 : Int) ≤ 20000 :=
  freq_table_rowmajor_increasing.2 262 (by decide)

/-- When the column pin reads high for k more samples and low at the
sample after them, the release wait consumes exactly those reads and
exits right after the low one. -/
theorem waitRelease_until_low (env : Nat → Nat → Bool) (pin : Nat) :
    ∀ k fuel t, env (t + k) pin = false →
      (∀ j, j < k → env (t + j) pin = true) → k < fuel →
      waitRelease env pin fuel t =
        (List.replicate k (Event.get pin true) ++ [Event.get pin false],
         some (t + k + 1)) := by
  intro k
  induction k with
  | zero =>
    intro fuel t hlow _ hfuel
    obtain ⟨f, rfl⟩ : ∃ f, fuel = f + 1 := ⟨fuel - 1, by omega⟩
    simp only [Nat.add_zero] at hlow
    simp [waitRelease, hlow]
  | succ k ih =>
    intro fuel t hlow hhigh hfuel
    obtain ⟨f, rfl⟩ : ∃ f, fuel = f + 1 := ⟨fuel - 1, by omega⟩
    have h0 : env t pin = true := by
      have := hhigh 0 (by omega)
      simpa using this
    have hrec := ih f (t + 1)
      (by have : t + 1 + k = t + (k + 1) := by omega
          rw [this]; exact hlow)
      (fun j hj => by
        have := hhigh (j + 1) (by omega)
        have harith : t + 1 + j = t + (j + 1) := by omega
        rw [harith]; exact this)
      (by omega)
    simp [waitRelease, h0, hrec, List.replicate_succ]
    omega

/-- C5: when the scanner detects a press (a high read of the column pin
at time t) and the pin keeps reading high for k further samples before
reading low, the scanner emits the tone and exactly those k high reads,
and control reaches the remaining columns only at the read after the
observed low — it never proceeds while the column pin still reads high,
and it proceeds as soon as the pin reads low (given fuel beyond k). -/
theorem scan_blocks_until_release (env : Nat → Nat → Bool) (fuel row col : Nat)
    (rest : List Nat) (t k : Nat)
    (hpress : env t (COLUMN_PINS.getD col 0) = true)
    (hlow : env (t + 1 + k) (COLUMN_PINS.getD col 0) = false)
    (hheld : ∀ j, j < k → env (t + 1 + j) (COLUMN_PINS.getD col 0) = true)
    (hfuel : k < fuel) :
    scanCols env fuel row (col :: rest) t =
      (Event.get (COLUMN_PINS.getD col 0) true ::
        Event.tone (freqAt row col) 200 ::
          (List.replicate k (Event.get (COLUMN_PINS.getD col 0) true) ++
            Event.get (COLUMN_PINS.getD col 0) false ::
              (scanCols env fuel row rest (t + 1 + k + 1)).1),
        (scanCols env fuel row rest (t + 1 + k + 1)).2) := by
  have hw := waitRelease_until_low env (COLUMN_PINS.getD col 0) k fuel (t + 1)
    hlow hheld hfuel
  simp only [List.getD, List.get?_eq_getElem?] at hpress hw
  simp [scanCols, List.getD, List.get?_eq_getElem?, hpress, hw]

/-- Witness for C5: press on column pin 17 at read 0, held for one more
sample, released at read 2; the rest of the row is scanned from read 3. -/
theorem scan_blocks_until_release_witness :
    scanCols (fun u _ => decide (u < 2)) 2 0 (0 :: [1, 2, 3]) 0 =
      (Event.get (COLUMN_PINS.getD 0 0) true ::
        Event.tone (freqAt 0 0) 200 ::
          (List.replicate 1 (Event.get (COLUMN_PINS.getD 0 0) true) ++
            Event.get (COLUMN_PINS.getD 0 0) false ::
              (scanCols (fun u _ => decide (u < 2)) 2 0 [1, 2, 3] 3).1),
        (scanCols (fun u _ => decide (u < 2)) 2 0 [1, 2, 3] 3).2) :=
  scan_blocks_until_release (fun u _ => decide (u < 2)) 2 0 0 [1, 2, 3] 0 1
    rfl rfl (by decide) (by decide)

/-- An event whose pin differs from p leaves the configuration of p
unchanged. -/
theorem applyCfg_other (s : Nat → PinConfig) (e : Event) (p : Nat)
    (h : ∀ q, eventPin e = some q → q ≠ p) : applyCfg s e p = s p := by
  cases e with
  | init pin => have := h pin rfl; simp [applyCfg, Ne.symm this]
  | setDir pin d => have := h pin rfl; simp [applyCfg, Ne.symm this]
  | put pin v => have := h pin rfl; simp [applyCfg, Ne.symm this]
  | pullDown pin => have := h pin rfl; simp [applyCfg, Ne.symm this]
  | get pin v => rfl
  | tone f ms => rfl
  | sleep ms => rfl
  | stdioInit => rfl
  | buzzerInit => rfl

/-- A trace whose events all touch pins other than p leaves the
configuration of p unchanged. -/
theorem foldCfg_untouched (p : Nat) :
    ∀ (evs : List Event) (s : Nat → PinConfig),
      (∀ e ∈ evs, ∀ q, eventPin e = some q → q ≠ p) →
      evs.foldl applyCfg s p = s p := by
  intro evs
  induction evs with
  | nil => intro s _; rfl
  | cons e rest ih =>
    intro s h
    rw [List.foldl_cons,
      ih (applyCfg s e) (fun e' he' => h e' (List.mem_cons_of_mem _ he'))]
    exact applyCfg_other s e p (h e (List.mem_cons_self e rest))

/-- C6: after setup_keyboard, each of the four line pins is an
initialized output driven low, each of the four column pins is an
initialized input with its pull-down enabled, and every other pin is
still in its untouched state. -/
theorem setup_keyboard_configures_pins :
    (∀ p ∈ LINE_PINS, configAfter setup_keyboard p =
      { initialized := true, dir := some true, value := false, pulled := false }) ∧
    (∀ p ∈ COLUMN_PINS, configAfter setup_keyboard p =
      { initialized := true, dir := some false, value := false, pulled := true }) ∧
    ∀ p, p ∉ LINE_PINS → p ∉ COLUMN_PINS →
      configAfter setup_keyboard p = initPinConfig := by
  refine ⟨by decide, by decide, ?_⟩
  intro p hl hc
  have htouch : ∀ e ∈ setup_keyboard, ∀ q, eventPin e = some q →
      q ∈ LINE_PINS ∨ q ∈ COLUMN_PINS := by decide
  exact foldCfg_untouched p setup_keyboard (fun _ => initPinConfig)
    (fun e he q hq => by
      rcases htouch e he q hq with h | h
      · exact fun hqp => hl (hqp ▸ h)
      · exact fun hqp => hc (hqp ▸ h))

/-- Witness for C6 at line pin 4, column pin 17, and untouched pin 0. -/
theorem setup_keyboard_configures_pins_witness :
    configAfter setup_keyboard 4 =
      { initialized := true, dir := some true, value := false, pulled := false } ∧
    configAfter setup_keyboard 17 =
      { initialized := true, dir := some false, value := false, pulled := true } ∧
    configAfter setup_keyboard 0 = initPinConfig :=
  ⟨setup_keyboard_configures_pins.1 4 (by decide),
   setup_keyboard_configures_pins.2.1 17 (by decide),
   setup_keyboard_configures_pins.2.2 0 (by decide) (by decide)⟩

/-- A put event contributes its pin-value pair to the put list. -/
theorem putsOf_cons_put (p : Nat) (v : Bool) (l : List Event) :
    putsOf (Event.put p v :: l) = (p, v) :: putsOf l := by
  simp [putsOf]

/-- A read event contributes nothing to the put list. -/
theorem putsOf_cons_get (p : Nat) (v : Bool) (l : List Event) :
    putsOf (Event.get p v :: l) = putsOf l := by
  simp [putsOf]

/-- A tone event contributes nothing to the put list. -/
theorem putsOf_cons_tone (f : Int) (ms : Nat) (l : List Event) :
    putsOf (Event.tone f ms :: l) = putsOf l := by
  simp [putsOf]

/-- Put lists concatenate over trace concatenation. -/
theorem putsOf_append (l₁ l₂ : List Event) :
    putsOf (l₁ ++ l₂) = putsOf l₁ ++ putsOf l₂ := by
  simp [putsOf]

/-- The release wait performs no line-pin writes. -/
theorem putsOf_waitRelease (env : Nat → Nat → Bool) (pin : Nat) :
    ∀ fuel t, putsOf (waitRelease env pin fuel t).1 = [] := by
  intro fuel
  induction fuel with
  | zero => intro t; rfl
  | succ k ih =>
    intro t
    by_cases h : env t pin
    · have htr : (waitRelease env pin (k + 1) t).1 =
          Event.get pin true :: (waitRelease env pin k (t + 1)).1 := by
        simp [waitRelease, h]
      rw [htr, putsOf_cons_get, ih (t + 1)]
    · have htr : (waitRelease env pin (k + 1) t).1 = [Event.get pin false] := by
        simp [waitRelease, h]
      rw [htr]
      rfl

/-- The column loop performs no line-pin writes. -/
theorem putsOf_scanCols (env : Nat → Nat → Bool) (fuel row : Nat) :
    ∀ cols t, putsOf (scanCols env fuel row cols t).1 = [] := by
  intro cols
  induction cols with
  | nil => intro t; rfl
  | cons col rest ih =>
    intro t
    rcases hw : waitRelease env (COLUMN_PINS.getD col 0) fuel (t + 1) with ⟨wevs, r⟩
    have hwp : putsOf wevs = [] := by
      have h0 := putsOf_waitRelease env (COLUMN_PINS.getD col 0) fuel (t + 1)
      rw [hw] at h0
      exact h0
    by_cases h : env t (COLUMN_PINS.getD col 0)
    · cases r with
      | none =>
        have htr : (scanCols env fuel row (col :: rest) t).1 =
            Event.get (COLUMN_PINS.getD col 0) true ::
              Event.tone (freqAt row col) 200 :: wevs := by
          simp only [List.getD, List.get?_eq_getElem?] at h hw
          simp [scanCols, List.getD, List.get?_eq_getElem?, h, hw]
        rw [htr, putsOf_cons_get, putsOf_cons_tone, hwp]
      | some t' =>
        have htr : (scanCols env fuel row (col :: rest) t).1 =
            Event.get (COLUMN_PINS.getD col 0) true ::
              Event.tone (freqAt row col) 200 ::
                (wevs ++ (scanCols env fuel row rest t').1) := by
          simp only [List.getD, List.get?_eq_getElem?] at h hw
          simp [scanCols, List.getD, List.get?_eq_getElem?, h, hw]
        rw [htr, putsOf_cons_get, putsOf_cons_tone, putsOf_append, hwp, ih t']
        rfl
    · have h' : env t (COLUMN_PINS.getD col 0) = false := by
        simpa using h
      have htr : (scanCols env fuel row (col :: rest) t).1 =
          Event.get (COLUMN_PINS.getD col 0) false ::
            (scanCols env fuel row rest (t + 1)).1 := by
        simp only [List.getD, List.get?_eq_getElem?] at h'
        simp [scanCols, List.getD, List.get?_eq_getElem?, h']
      rw [htr, putsOf_cons_get, ih (t + 1)]

/-- The line-pin writes of a row scan form a prefix of the full
activate-deactivate sequence of the scanned rows. -/
theorem scanRows_puts_isPre (env : Nat → Nat → Bool) (fuel : Nat) :
    ∀ rows t, putsOf (scanRows env fuel rows t).1 <+: rowPutPairs rows := by
  intro rows
  induction rows with
  | nil => intro t; exact ⟨[], rfl⟩
  | cons row rest ih =>
    intro t
    rcases hc : scanCols env fuel row [0, 1, 2, 3] t with ⟨evs, r⟩
    have hevs : putsOf evs = [] := by
      have h0 := putsOf_scanCols env fuel row [0, 1, 2, 3] t
      rw [hc] at h0
      exact h0
    have hexp : rowPutPairs (row :: rest) =
        (LINE_PINS.getD row 0, true) :: (LINE_PINS.getD row 0, false) ::
          rowPutPairs rest := by
      simp [rowPutPairs]
    cases r with
    | none =>
      have htr : (scanRows env fuel (row :: rest) t).1 =
          Event.put (LINE_PINS.getD row 0) true :: evs := by
        simp [scanRows, hc]
      rw [htr, putsOf_cons_put, hevs, hexp]
      exact ⟨(LINE_PINS.getD row 0, false) :: rowPutPairs rest, rfl⟩
    | some t' =>
      have htr : (scanRows env fuel (row :: rest) t).1 =
          Event.put (LINE_PINS.getD row 0) true ::
            (evs ++ Event.put (LINE_PINS.getD row 0) false ::
              (scanRows env fuel rest t').1) := by
        simp [scanRows, hc]
      obtain ⟨suf, hsuf⟩ := ih t'
      refine ⟨suf, ?_⟩
      rw [htr, putsOf_cons_put, putsOf_append, hevs, putsOf_cons_put, hexp]
      simp only [List.nil_append, List.cons_append, List.append_assoc]
      rw [hsuf]

/-- When every row completes, the line-pin writes are exactly the full
activate-deactivate sequence of the scanned rows. -/
theorem putsOf_scanRows_complete (env : Nat → Nat → Bool) (fuel : Nat) :
    ∀ rows t, (scanRows env fuel rows t).2.isSome →
      putsOf (scanRows env fuel rows t).1 = rowPutPairs rows := by
  intro rows
  induction rows with
  | nil => intro t _; rfl
  | cons row rest ih =>
    intro t hdone
    rcases hc : scanCols env fuel row [0, 1, 2, 3] t with ⟨evs, r⟩
    have hevs : putsOf evs = [] := by
      have h0 := putsOf_scanCols env fuel row [0, 1, 2, 3] t
      rw [hc] at h0
      exact h0
    have hexp : rowPutPairs (row :: rest) =
        (LINE_PINS.getD row 0, true) :: (LINE_PINS.getD row 0, false) ::
          rowPutPairs rest := by
      simp [rowPutPairs]
    cases r with
    | none =>
      exfalso
      have h2 : (scanRows env fuel (row :: rest) t).2 = none := by
        simp [scanRows, hc]
      rw [h2] at hdone
      simp at hdone
    | some t' =>
      have htr : (scanRows env fuel (row :: rest) t).1 =
          Event.put (LINE_PINS.getD row 0) true ::
            (evs ++ Event.put (LINE_PINS.getD row 0) false ::
              (scanRows env fuel rest t').1) := by
        simp [scanRows, hc]
      have h2 : (scanRows env fuel (row :: rest) t).2 =
          (scanRows env fuel rest t').2 := by
        simp [scanRows, hc]
      rw [h2] at hdone
      rw [htr, putsOf_cons_put, putsOf_append, hevs, putsOf_cons_put,
        ih t' hdone, hexp]
      rfl

/-- Trace prefixes give put-list prefixes. -/
theorem putsOf_isPre_mono (l₁ l₂ : List Event) (h : l₁ <+: l₂) :
    putsOf l₁ <+: putsOf l₂ := by
  obtain ⟨ts, rfl⟩ := h
  exact ⟨putsOf ts, (putsOf_append l₁ ts).symm⟩

/-- Along every prefix of the full put sequence, at most one line pin
is high. -/
theorem fullPutSeq_inits_at_most_one :
    ∀ ps ∈ fullPutSeq.inits, (lineLevels ps).count true ≤ 1 := by
  decide

/-- After the full put sequence, all four line pins are low again. -/
theorem fullPutSeq_all_low :
    lineLevels fullPutSeq = [false, false, false, false] := by
  decide

/-- C7: throughout a scan pass, the line-pin writes follow the
activate-then-deactivate order of fullPutSeq, at every intermediate
point of the trace at most one line pin is high, and when the pass
completes all four line pins are back low. -/
theorem scan_line_pin_discipline (env : Nat → Nat → Bool) (fuel t : Nat) :
    putsOf (scan_keyboard env fuel t).1 <+: fullPutSeq ∧
    (∀ pre, pre <+: (scan_keyboard env fuel t).1 →
      (lineLevels (putsOf pre)).count true ≤ 1) ∧
    ((scan_keyboard env fuel t).2.isSome →
      lineLevels (putsOf (scan_keyboard env fuel t).1) =
        [false, false, false, false]) := by
  have hpref : putsOf (scan_keyboard env fuel t).1 <+: fullPutSeq :=
    scanRows_puts_isPre env fuel [0, 1, 2, 3] t
  refine ⟨hpref, ?_, ?_⟩
  · intro pre hpre
    have h1 : putsOf pre <+: fullPutSeq :=
      (putsOf_isPre_mono pre _ hpre).trans hpref
    exact fullPutSeq_inits_at_most_one _ ((List.mem_inits _ _).2 h1)
  · intro hdone
    have hc := putsOf_scanRows_complete env fuel [0, 1, 2, 3] t hdone
    rw [scan_keyboard, hc]
    exact fullPutSeq_all_low

/-- Witness for C7 with the all-low environment and the empty prefix. -/
theorem scan_line_pin_discipline_witness :
    (lineLevels (putsOf ([] : List Event))).count true ≤ 1 ∧
    lineLevels (putsOf (scan_keyboard (fun _ _ => false) 0 0).1) =
      [false, false, false, false] :=
  ⟨(scan_line_pin_discipline (fun _ _ => false) 0 0).2.1 [] ⟨_, rfl⟩,
   (scan_line_pin_discipline (fun _ _ => false) 0 0).2.2 (by decide)⟩

/-- Every in-range column index selects a pin of COLUMN_PINS. -/
theorem col_pin_mem : ∀ c, c < 4 → COLUMN_PINS.getD c 0 ∈ COLUMN_PINS := by
  decide

/-- Every in-range row index selects a pin of LINE_PINS. -/
theorem line_pin_mem : ∀ r, r < 4 → LINE_PINS.getD r 0 ∈ LINE_PINS := by
  decide

/-- For in-range indices the unchecked lookup agrees with the checked
one, so it never falls back to the default. -/
theorem freqAt_in_table :
    ∀ r, r < 4 → ∀ c, c < 4 → freq_map_at r c = some (freqAt r c) := by
  decide

/-- The release wait only emits reads of the watched column pin. -/
theorem waitRelease_events (env : Nat → Nat → Bool) (pin : Nat) :
    ∀ fuel t e, e ∈ (waitRelease env pin fuel t).1 →
      ∃ v, e = Event.get pin v := by
  intro fuel
  induction fuel with
  | zero => intro t e he; simp [waitRelease] at he
  | succ k ih =>
    intro t e he
    by_cases h : env t pin
    · have htr : (waitRelease env pin (k + 1) t).1 =
          Event.get pin true :: (waitRelease env pin k (t + 1)).1 := by
        simp [waitRelease, h]
      rw [htr] at he
      rcases List.mem_cons.1 he with rfl | hmem
      · exact ⟨true, rfl⟩
      · exact ih (t + 1) e hmem
    · have htr : (waitRelease env pin (k + 1) t).1 = [Event.get pin false] := by
        simp [waitRelease, h]
      rw [htr] at he
      simp at he
      exact ⟨false, he⟩

/-- Every event of the column loop is safe, for an in-range row and
in-range column indices. -/
theorem scanCols_events_ok (env : Nat → Nat → Bool) (fuel row : Nat)
    (hrow : row < 4) :
    ∀ cols, (∀ c ∈ cols, c < 4) →
      ∀ t e, e ∈ (scanCols env fuel row cols t).1 → eventOk e := by
  intro cols
  induction cols with
  | nil => intro _ t e he; simp [scanCols] at he
  | cons col rest ih =>
    intro hc t e he
    have hcol : col < 4 := hc col (List.mem_cons_self col rest)
    have hrest : ∀ c ∈ rest, c < 4 := fun c h => hc c (List.mem_cons_of_mem _ h)
    have hpinmem : eventOk (Event.get (COLUMN_PINS.getD col 0) true) :=
      col_pin_mem col hcol
    have hpinmem' : eventOk (Event.get (COLUMN_PINS.getD col 0) false) :=
      col_pin_mem col hcol
    have htone : eventOk (Event.tone (freqAt row col) 200) :=
      ⟨rfl, row, hrow, col, hcol, freqAt_in_table row hrow col hcol⟩
    rcases hw : waitRelease env (COLUMN_PINS.getD col 0) fuel (t + 1) with ⟨wevs, r⟩
    have hwev : ∀ e ∈ wevs, ∃ v, e = Event.get (COLUMN_PINS.getD col 0) v := by
      intro e' he'
      have h0 := waitRelease_events env (COLUMN_PINS.getD col 0) fuel (t + 1) e'
      rw [hw] at h0
      exact h0 he'
    by_cases h : env t (COLUMN_PINS.getD col 0)
    · cases r with
      | none =>
        have htr : (scanCols env fuel row (col :: rest) t).1 =
            Event.get (COLUMN_PINS.getD col 0) true ::
              Event.tone (freqAt row col) 200 :: wevs := by
          simp only [List.getD, List.get?_eq_getElem?] at h hw
          simp [scanCols, List.getD, List.get?_eq_getElem?, h, hw]
        rw [htr] at he
        rcases List.mem_cons.1 he with rfl | he2
        · exact hpinmem
        rcases List.mem_cons.1 he2 with rfl | he3
        · exact htone
        obtain ⟨v, rfl⟩ := hwev e he3
        exact col_pin_mem col hcol
      | some t' =>
        have htr : (scanCols env fuel row (col :: rest) t).1 =
            Event.get (COLUMN_PINS.getD col 0) true ::
              Event.tone (freqAt row col) 200 ::
                (wevs ++ (scanCols env fuel row rest t').1) := by
          simp only [List.getD, List.get?_eq_getElem?] at h hw
          simp [scanCols, List.getD, List.get?_eq_getElem?, h, hw]
        rw [htr] at he
        rcases List.mem_cons.1 he with rfl | he2
        · exact hpinmem
        rcases List.mem_cons.1 he2 with rfl | he3
        · exact htone
        rcases List.mem_append.1 he3 with he4 | he5
        · obtain ⟨v, rfl⟩ := hwev e he4
          exact col_pin_mem col hcol
        · exact ih hrest t' e he5
    · have h' : env t (COLUMN_PINS.getD col 0) = false := by
        simpa using h
      have htr : (scanCols env fuel row (col :: rest) t).1 =
          Event.get (COLUMN_PINS.getD col 0) false ::
            (scanCols env fuel row rest (t + 1)).1 := by
        simp only [List.getD, List.get?_eq_getElem?] at h'
        simp [scanCols, List.getD, List.get?_eq_getElem?, h']
      rw [htr] at he
      rcases List.mem_cons.1 he with rfl | he2
      · exact hpinmem'
      · exact ih hrest (t + 1) e he2

/-- Every event of the row loop is safe, for in-range row indices. -/
theorem scanRows_events_ok (env : Nat → Nat → Bool) (fuel : Nat) :
    ∀ rows, (∀ r ∈ rows, r < 4) →
      ∀ t e, e ∈ (scanRows env fuel rows t).1 → eventOk e := by
  intro rows
  induction rows with
  | nil => intro _ t e he; simp [scanRows] at he
  | cons row rest ih =>
    intro hr t e he
    have hrow : row < 4 := hr row (List.mem_cons_self row rest)
    have hrest : ∀ r ∈ rest, r < 4 := fun r h => hr r (List.mem_cons_of_mem _ h)
    have hput : eventOk (Event.put (LINE_PINS.getD row 0) true) :=
      line_pin_mem row hrow
    have hput' : eventOk (Event.put (LINE_PINS.getD row 0) false) :=
      line_pin_mem row hrow
    rcases hc : scanCols env fuel row [0, 1, 2, 3] t with ⟨evs, r⟩
    have hevs : ∀ e ∈ evs, eventOk e := by
      intro e' he'
      have h0 := scanCols_events_ok env fuel row hrow [0, 1, 2, 3]
        (by decide) t e'
      rw [hc] at h0
      exact h0 he'
    cases r with
    | none =>
      have htr : (scanRows env fuel (row :: rest) t).1 =
          Event.put (LINE_PINS.getD row 0) true :: evs := by
        simp [scanRows, hc]
      rw [htr] at he
      rcases List.mem_cons.1 he with rfl | he2
      · exact hput
      · exact hevs e he2
    | some t' =>
      have htr : (scanRows env fuel (row :: rest) t).1 =
          Event.put (LINE_PINS.getD row 0) true ::
            (evs ++ Event.put (LINE_PINS.getD row 0) false ::
              (scanRows env fuel rest t').1) := by
        simp [scanRows, hc]
      rw [htr] at he
      rcases List.mem_cons.1 he with rfl | he2
      · exact hput
      rcases List.mem_append.1 he2 with he3 | he4
      · exact hevs e he3
      rcases List.mem_cons.1 he4 with rfl | he5
      · exact hput'
      · exact ih hrest t' e he5

/-- Every event of the polling loop is safe. -/
theorem loopTrace_events_ok (env : Nat → Nat → Bool) (fuel : Nat) :
    ∀ n t e, e ∈ loopTrace env fuel n t → eventOk e := by
  intro n
  induction n with
  | zero => intro t e he; simp [loopTrace] at he
  | succ k ih =>
    intro t e he
    rcases hs : scan_keyboard env fuel t with ⟨evs, r⟩
    have hevs : ∀ e ∈ evs, eventOk e := by
      intro e' he'
      have h0 := scanRows_events_ok env fuel [0, 1, 2, 3] (by decide) t e'
      have hs' : scanRows env fuel [0, 1, 2, 3] t = (evs, r) := hs
      rw [hs'] at h0
      exact h0 he'
    cases r with
    | none =>
      have htr : loopTrace env fuel (k + 1) t = evs := by
        simp [loopTrace, hs]
      rw [htr] at he
      exact hevs e he
    | some t' =>
      have htr : loopTrace env fuel (k + 1) t =
          evs ++ Event.sleep 10 :: loopTrace env fuel k t' := by
        simp [loopTrace, hs]
      rw [htr] at he
      rcases List.mem_append.1 he with h1 | h2
      · exact hevs e h1
      rcases List.mem_cons.1 h2 with rfl | h3
      · exact rfl
      · exact ih t' e h3

/-- C10: every event of the setup trace configures a keypad pin, and in
every environment every event of the polling loop is safe: reads target
column pins, writes target line pins, and every tone carries a frequency
that is a freq_map entry at in-range indices together with the fixed
200 ms duration, so no array lookup of the program is out of bounds. -/
theorem program_accesses_in_bounds :
    (∀ e ∈ setupTrace, eventOk e) ∧
    ∀ env fuel n t, ∀ e ∈ loopTrace env fuel n t, eventOk e := by
  constructor
  · decide
  · intro env fuel n t e he
    exact loopTrace_events_ok env fuel n t e he

/-- Witness for C10 at a setup event and a polling-loop event. -/
theorem program_accesses_in_bounds_witness :
    eventOk (Event.init 4) ∧ eventOk (Event.get 17 false) :=
  ⟨program_accesses_in_bounds.1 (Event.init 4) (by decide),
   program_accesses_in_bounds.2 (fun _ _ => false) 0 1 0 (Event.get 17 false)
     (by decide)⟩
